import Mathlib

/-!
# Fraux_rs: a Bencode codec — shallow embedding and verification

This file embeds `src/lib.rs` of the Fraux_rs repository (a Bencode
decoder/encoder) into Lean 4 and proves or refutes the frozen claims about
its specification.

Modelling conventions:
* Bytes are `Nat` (values < 256 in practice; the code only compares bytes
  against ASCII literals and subtracts `b'0'` from digits, so no byte
  arithmetic can overflow).
* `Peekable<Iter<u8>>` state is modelled by explicit state passing: each
  parsing function takes the remaining input `List Nat` and returns the
  unconsumed remainder alongside its result.
* Rust `Result<T, E>` is `Except E T`; the opaque `Box<dyn Error>` payload
  of `ParseErr::ParseFailure` is dropped (claims only distinguish variants).
* The mutually recursive parsing loops take a fuel parameter so that the
  definitions are structurally recursive and reduce by `rfl`.  Each fuel
  decrement is accompanied by at least one consumed input byte before the
  next decrement can occur twice, so `2 * length + 2` fuel is never
  exhausted; general theorems below carry their fuel bounds explicitly.
* `BTreeMap<String, BData>` is modelled as an association list of raw
  UTF-8 key bytes kept sorted by the byte-lexicographic order (Rust's
  `Ord` on `String` is exactly the lexicographic order of UTF-8 bytes);
  `String::from_utf8` is modelled by the `utf8_valid` check on the bytes.
-/

/-- `BData` from src/lib.rs lines 5–11: the Bencode value model.
`BString` holds raw bytes; `Number` holds an `i32` (modelled as `Int`, with
the 32-bit range imposed where the code guarantees it); `Dict` models
`BTreeMap<String, BData>` as a key-sorted association list whose keys are
the raw UTF-8 bytes of the Rust `String` keys. -/
inductive BData where
  | bstring : List Nat → BData
  | number : Int → BData
  | list : List BData → BData
  | dict : List (List Nat × BData) → BData

/-- `ParseErr` from src/lib.rs lines 12–20.  The `Box<dyn Error>` payload of
`ParseFailure` is not modelled. -/
inductive ParseErr where
  | syntaxError
  | dataException
  | parseFailure
deriving DecidableEq

/-- Rust's `Ord` on `String`/`[u8]`: strict byte-lexicographic order on the
UTF-8 bytes (a strict prefix is smaller). -/
def key_lt : List Nat → List Nat → Bool
  | [], [] => false
  | [], _ :: _ => true
  | _ :: _, [] => false
  | a :: as, b :: bs => decide (a < b) || (decide (a = b) && key_lt as bs)

/-- Modelled from Rust std: `BTreeMap::insert` on the sorted-association-list
representation — place the pair at its ordered position, replacing the value
if the key is already present. -/
def map_insert (k : List Nat) (v : BData) : List (List Nat × BData) → List (List Nat × BData)
  | [] => [(k, v)]
  | (k', v') :: rest =>
    if key_lt k k' then (k, v) :: (k', v') :: rest
    else if k = k' then (k, v) :: rest
    else (k', v') :: map_insert k v rest

/-- A UTF-8 continuation byte (`0x80..=0xBF`). -/
def utf8_cont (b : Nat) : Bool := decide (128 ≤ b ∧ b ≤ 191)

/-- Modelled from Rust std: the validity check performed by
`String::from_utf8` — standard UTF-8 (RFC 3629): no overlong forms, no
surrogates, code points at most U+10FFFF. -/
def utf8_valid : List Nat → Bool
  | [] => true
  | c :: rest =>
    if c ≤ 127 then utf8_valid rest
    else
      match rest with
      | [] => false
      | c1 :: r1 =>
        if 194 ≤ c ∧ c ≤ 223 then utf8_cont c1 && utf8_valid r1
        else
          match r1 with
          | [] => false
          | c2 :: r2 =>
            if (c = 224 ∧ 160 ≤ c1 ∧ c1 ≤ 191) ∨
               (225 ≤ c ∧ c ≤ 236 ∧ utf8_cont c1) ∨
               (c = 237 ∧ 128 ≤ c1 ∧ c1 ≤ 159) ∨
               (238 ≤ c ∧ c ≤ 239 ∧ utf8_cont c1) then
              utf8_cont c2 && utf8_valid r2
            else
              match r2 with
              | [] => false
              | c3 :: r3 =>
                if (c = 240 ∧ 144 ≤ c1 ∧ c1 ≤ 191) ∨
                   (241 ≤ c ∧ c ≤ 243 ∧ utf8_cont c1) ∨
                   (c = 244 ∧ 128 ≤ c1 ∧ c1 ≤ 143) then
                  utf8_cont c2 && utf8_cont c3 && utf8_valid r3
                else false

/-- Decimal value of a list of ASCII digit bytes, most significant first. -/
def digits_val (ds : List Nat) : Nat :=
  ds.foldl (fun a c => a * 10 + (c - 48)) 0

/-- Modelled from Rust std: `<i32 as FromStr>::from_str` (used by
`s.parse::<i32>()` at src/lib.rs line 66) on a byte string: an optional
leading `+` or `-` sign followed by one or more ASCII digits; any other
shape is an error, and so is a value outside `i32`'s range
`[-2147483648, 2147483647]`.  `none` models `Err(ParseIntError)`. -/
def rust_parse_i32 (s : List Nat) : Option Int :=
  match s with
  | [] => none
  | c :: r =>
    let ds := if c = 43 ∨ c = 45 then r else c :: r
    if ds = [] then none
    else if ds.all (fun d => decide (48 ≤ d ∧ d ≤ 57)) then
      let m : Int := (digits_val ds : Int)
      let v : Int := if c = 45 then -m else m
      if -2147483648 ≤ v ∧ v ≤ 2147483647 then some v else none
    else none

/-- The digit-and-sign accumulation loop of `parse_number`
(src/lib.rs lines 45–65).  `symb` records whether a sign byte has been
seen; `num` is the accumulated token.  Returns the token and the remaining
input after the terminating `e`. -/
def parse_number_loop (symb : Bool) (num : List Nat) :
    List Nat → Except ParseErr (List Nat × List Nat)
  | [] => .error .dataException
  | c :: rest =>
    if 48 ≤ c ∧ c ≤ 57 then parse_number_loop symb (num ++ [c]) rest
    else if c = 43 ∨ c = 45 then
      if symb then .error .syntaxError
      else parse_number_loop true (num ++ [c]) rest
    else if c = 101 then .ok (num, rest)
    else .error .syntaxError

/-- `parse_number` from src/lib.rs lines 41–84: consume `i`, run the token
loop, then convert via `String::from_utf8` (always succeeds here since the
token is ASCII, but the code's `ParseFailure` branch for it is kept) and
`parse::<i32>`, whose failure is `ParseFailure`. -/
def parse_number (s : List Nat) : Except ParseErr (BData × List Nat) :=
  match s with
  | [] => .error .dataException
  | c :: rest =>
    if c = 105 then
      match parse_number_loop false [] rest with
      | .error e => .error e
      | .ok (num, rest') =>
        if utf8_valid num then
          match rust_parse_i32 num with
          | some n => .ok (.number n, rest')
          | none => .error .parseFailure
        else .error .parseFailure
    else .error .syntaxError

/-- The length-accumulation loop of `parse_string`
(src/lib.rs lines 87–100): digits accumulate into `len`; a `:` terminates;
anything else is a `SyntaxError`; end of input is a `DataException`. -/
def parse_string_len (len : Nat) : List Nat → Except ParseErr (Nat × List Nat)
  | [] => .error .dataException
  | c :: rest =>
    if 48 ≤ c ∧ c ≤ 57 then parse_string_len (len * 10 + (c - 48)) rest
    else if c = 58 then .ok (len, rest)
    else .error .syntaxError

/-- The payload-collection loop of `parse_string`
(src/lib.rs lines 102–113): take exactly `n` bytes, `DataException` if the
input runs out first. -/
def parse_string_take (n : Nat) (s : List Nat) :
    Except ParseErr (List Nat × List Nat) :=
  match n, s with
  | 0, s => .ok ([], s)
  | _ + 1, [] => .error .dataException
  | n + 1, c :: rest =>
    match parse_string_take n rest with
    | .ok (bs, r) => .ok (c :: bs, r)
    | .error e => .error e

/-- `parse_string` from src/lib.rs lines 86–116. -/
def parse_string (s : List Nat) : Except ParseErr (BData × List Nat) :=
  match parse_string_len 0 s with
  | .ok (len, rest) =>
    match parse_string_take len rest with
    | .ok (bs, r) => .ok (.bstring bs, r)
    | .error e => .error e
  | .error e => .error e

mutual

/-- `parse_data` from src/lib.rs lines 28–39, with the leading `next()`
matches of `parse_list` (line 119–121) and `parse_dict` (line 153–155)
inlined into the dispatch: the dispatch peeks the same byte those matches
re-examine, so after peeking `l` (resp. `d`) the code always reaches the
corresponding loop.  The fuel argument only decreases on the recursive
calls and is never exhausted at the bound used by `parse`. -/
def parse_data : Nat → List Nat → Except ParseErr (BData × List Nat)
  | 0, _ => .error .dataException
  | f + 1, s =>
    match s with
    | [] => .error .dataException
    | c :: rest =>
      if 48 ≤ c ∧ c ≤ 57 then parse_string (c :: rest)
      else if c = 105 then parse_number (c :: rest)
      else if c = 108 then parse_list_loop f [] rest
      else if c = 100 then parse_dict_loop f [] rest
      else .error .syntaxError

/-- The element loop of `parse_list` (src/lib.rs lines 122–145): peek —
`e` terminates the list, end of input is a `DataException`, anything else
recursively parses a value, appending it to the accumulator. -/
def parse_list_loop : Nat → List BData → List Nat → Except ParseErr (BData × List Nat)
  | 0, _, _ => .error .dataException
  | f + 1, acc, s =>
    match s with
    | [] => .error .dataException
    | c :: rest =>
      if c = 101 then .ok (.list acc, rest)
      else
        match parse_data f (c :: rest) with
        | .ok (d, s') => parse_list_loop f (acc ++ [d]) s'
        | .error e => .error e

/-- The entry loop of `parse_dict` (src/lib.rs lines 156–186): peek — `e`
terminates, end of input is a `DataException`; otherwise `parse_string` is
invoked directly for the key (whatever the lookahead byte is), a non-UTF-8
key makes the `if let Ok(k) = String::from_utf8(key)` guard skip both the
insertion and the value parse, and otherwise the value is parsed and the
pair inserted into the `BTreeMap`. -/
def parse_dict_loop : Nat → List (List Nat × BData) → List Nat →
    Except ParseErr (BData × List Nat)
  | 0, _, _ => .error .dataException
  | f + 1, m, s =>
    match s with
    | [] => .error .dataException
    | c :: rest =>
      if c = 101 then .ok (.dict m, rest)
      else
        match parse_string (c :: rest) with
        | .ok (.bstring k, s') =>
          if utf8_valid k then
            match parse_data f s' with
            | .ok (v, s'') => parse_dict_loop f (map_insert k v m) s''
            | .error e => .error e
          else parse_dict_loop f m s'
        | .ok _ => .error .syntaxError
        | .error e => .error e

end

/-- `parse` from src/lib.rs lines 22–26: run `parse_data` once on the whole
input and return its value, discarding the iterator (and with it any count
of how much input was consumed).  The fuel `2 * src.length + 2` is enough
for any input: every fuel decrement consumes at least one byte, except that
a loop handing off to `parse_data` may decrement twice for the single byte
that `parse_data`'s dispatch then consumes. -/
def parse (src : List Nat) : Except ParseErr BData :=
  (parse_data (2 * src.length + 2) src).map Prod.fst

/-- Fuel-based core of `nat_digits` (structural recursion so that concrete
encodings reduce by `rfl`); fuel `n + 1` always suffices. -/
def nat_digits_core : Nat → Nat → List Nat
  | 0, _ => []
  | f + 1, n =>
    if n < 10 then [48 + n]
    else nat_digits_core f (n / 10) ++ [48 + n % 10]

/-- ASCII decimal digits of `n`, most significant first, no leading zeros:
the bytes of Rust's `format!("{}", n)` for a nonnegative number. -/
def nat_digits (n : Nat) : List Nat :=
  nat_digits_core (n + 1) n

/-- Modelled from Rust std: the bytes of `format!("{}", n)` for an `i32` —
minimal decimal form, `-` prefix for negatives, `0` for zero. -/
def int_digits (n : Int) : List Nat :=
  if n < 0 then 45 :: nat_digits n.natAbs else nat_digits n.toNat

/-- `stringify_number` from src/lib.rs lines 203–209. -/
def stringify_number (n : Int) : Except String (List Nat) :=
  .ok (105 :: int_digits n ++ [101])

/-- `stringify_string` from src/lib.rs lines 211–217. -/
def stringify_string (data : List Nat) : Except String (List Nat) :=
  .ok (nat_digits data.length ++ 58 :: data)

mutual

/-- `stringify` from src/lib.rs lines 193–201. -/
def stringify : BData → Except String (List Nat)
  | .bstring s => stringify_string s
  | .number n => stringify_number n
  | .list l =>
    match stringify_items l with
    | .ok its => .ok (108 :: its ++ [101])
    | .error e => .error e
  | .dict m =>
    match stringify_dict_items m with
    | .ok its => .ok (100 :: its ++ [101])
    | .error e => .error e

/-- The `data.iter().all(...)` accumulation of `stringify_list`
(src/lib.rs lines 219–238): concatenate element encodings, stopping at the
first failure (the `l`/`e` framing is added by `stringify`). -/
def stringify_items : List BData → Except String (List Nat)
  | [] => .ok []
  | x :: xs =>
    match stringify x with
    | .ok s =>
      match stringify_items xs with
      | .ok rest => .ok (s ++ rest)
      | .error e => .error e
    | .error e => .error e

/-- The `data.iter().all(...)` accumulation of `stringify_dict`
(src/lib.rs lines 240–273): for each pair in `BTreeMap` (ascending key)
order, encode the key with `stringify_string` on its UTF-8 bytes, then the
value, stopping at the first failure. -/
def stringify_dict_items : List (List Nat × BData) → Except String (List Nat)
  | [] => .ok []
  | (k, v) :: xs =>
    match stringify_string k with
    | .ok ks =>
      match stringify v with
      | .ok vs =>
        match stringify_dict_items xs with
        | .ok rest => .ok (ks ++ vs ++ rest)
        | .error e => .error e
      | .error e => .error e
    | .error e => .error e

end

/-- Keys strictly ascending in Rust's `String` order (the `BTreeMap`
iteration-order invariant). -/
def keys_sorted : List (List Nat × BData) → Bool
  | [] => true
  | [_] => true
  | (k1, _) :: (k2, v2) :: r => key_lt k1 k2 && keys_sorted ((k2, v2) :: r)

mutual

/-- The representation invariant of values constructible in the Rust
program: every `Number` payload fits in `i32`, every `Dict` is a key-sorted
map whose keys are (as `String`s necessarily are) valid UTF-8. -/
def valid : BData → Bool
  | .bstring _ => true
  | .number n => decide (-2147483648 ≤ n ∧ n ≤ 2147483647)
  | .list l => valid_items l
  | .dict m => keys_sorted m && valid_pairs m

def valid_items : List BData → Bool
  | [] => true
  | x :: xs => valid x && valid_items xs

def valid_pairs : List (List Nat × BData) → Bool
  | [] => true
  | (k, v) :: xs => utf8_valid k && valid v && valid_pairs xs

end

/-- Modelled from Rust std: `BTreeMap::get` on the association-list
representation. -/
def map_lookup (k : List Nat) : List (List Nat × BData) → Option BData
  | [] => none
  | (k', v) :: rest => if k = k' then some v else map_lookup k rest

mutual

/-- The `BTreeMap` ordering invariant, recursively: every dictionary in the
value stores its pairs in strictly ascending key order. -/
def dicts_sorted : BData → Bool
  | .bstring _ => true
  | .number _ => true
  | .list l => dicts_sorted_items l
  | .dict m => keys_sorted m && dicts_sorted_pairs m

def dicts_sorted_items : List BData → Bool
  | [] => true
  | x :: xs => dicts_sorted x && dicts_sorted_items xs

def dicts_sorted_pairs : List (List Nat × BData) → Bool
  | [] => true
  | (_, v) :: xs => dicts_sorted v && dicts_sorted_pairs xs

end

/-! ## Basic lemmas: decimal digits, UTF-8, key order, map insertion -/

theorem nat_digits_core_irrel :
    ∀ n f₁ f₂, n < f₁ → n < f₂ → nat_digits_core f₁ n = nat_digits_core f₂ n := by
  intro n
  induction n using Nat.strong_induction_on with
  | _ n ih =>
    intro f₁ f₂ h₁ h₂
    match f₁, f₂ with
    | g₁ + 1, g₂ + 1 =>
      by_cases h : n < 10
      · simp [nat_digits_core, h]
      · have hd : n / 10 < n := Nat.div_lt_self (by omega) (by omega)
        simp only [nat_digits_core, if_neg h]
        rw [ih (n / 10) hd g₁ g₂ (by omega) (by omega)]

/-- The recursive unfolding of `nat_digits`. -/
theorem nat_digits_eq (n : Nat) :
    nat_digits n = if n < 10 then [48 + n] else nat_digits (n / 10) ++ [48 + n % 10] := by
  by_cases h : n < 10
  · rw [if_pos h]
    simp [nat_digits, nat_digits_core, h]
  · rw [if_neg h]
    have hd : n / 10 < n := Nat.div_lt_self (by omega) (by omega)
    show nat_digits_core (n + 1) n = _
    simp only [nat_digits_core, if_neg h]
    rw [nat_digits_core_irrel (n / 10) n (n / 10 + 1) hd (by omega)]
    rfl

theorem nat_digits_mem (n : Nat) : ∀ c ∈ nat_digits n, 48 ≤ c ∧ c ≤ 57 := by
  induction n using Nat.strong_induction_on with
  | _ n ih =>
    rw [nat_digits_eq]
    by_cases h : n < 10
    · simp [h]; omega
    · have hd : n / 10 < n := Nat.div_lt_self (by omega) (by omega)
      have hm : n % 10 < 10 := Nat.mod_lt _ (by omega)
      simp only [if_neg h, List.mem_append, List.mem_singleton]
      rintro c (hc | rfl)
      · exact ih (n / 10) hd c hc
      · omega

theorem nat_digits_ne_nil (n : Nat) : nat_digits n ≠ [] := by
  rw [nat_digits_eq]
  by_cases h : n < 10 <;> simp [h]

theorem digits_val_nat_digits (n : Nat) : digits_val (nat_digits n) = n := by
  induction n using Nat.strong_induction_on with
  | _ n ih =>
    rw [nat_digits_eq]
    by_cases h : n < 10
    · simp [h, digits_val]
    · have hd : n / 10 < n := Nat.div_lt_self (by omega) (by omega)
      simp only [if_neg h, digits_val, List.foldl_append, List.foldl_cons, List.foldl_nil]
      have := ih (n / 10) hd
      simp only [digits_val] at this
      rw [this]
      omega

theorem utf8_valid_ascii : ∀ s : List Nat, (∀ c ∈ s, c ≤ 127) → utf8_valid s = true := by
  intro s
  induction s with
  | nil => intro; rfl
  | cons c rest ih =>
    intro h
    have hc : c ≤ 127 := h c (by simp)
    rw [utf8_valid.eq_def]
    simp only [if_pos hc]
    exact ih (fun x hx => h x (by simp [hx]))

theorem key_lt_irrefl : ∀ a, key_lt a a = false := by
  intro a
  induction a with
  | nil => rfl
  | cons x xs ih => simp [key_lt, ih]

theorem key_lt_ne : ∀ a b, key_lt a b = true → a ≠ b := by
  intro a b h heq
  subst heq
  rw [key_lt_irrefl] at h
  exact Bool.false_ne_true h

theorem key_lt_asymm : ∀ a b, key_lt a b = true → key_lt b a = false := by
  intro a
  induction a with
  | nil =>
    intro b _
    cases b with
    | nil => rfl
    | cons y ys => rfl
  | cons x xs ih =>
    intro b hab
    cases b with
    | nil => simp [key_lt] at hab
    | cons y ys =>
      simp only [key_lt, Bool.or_eq_true, decide_eq_true_eq, Bool.and_eq_true] at hab ⊢
      rcases hab with h1 | ⟨rfl, h2⟩
      · simp only [Bool.or_eq_false_iff, Bool.and_eq_false_iff, decide_eq_false_iff_not]
        constructor
        · omega
        · left; omega
      · simp [ih ys h2]

theorem key_lt_trans : ∀ a b c, key_lt a b = true → key_lt b c = true → key_lt a c = true := by
  intro a
  induction a with
  | nil =>
    intro b c hab hbc
    cases c with
    | nil =>
      cases b with
      | nil => exact hbc
      | cons y ys => simp [key_lt] at hbc
    | cons z zs => rfl
  | cons x xs ih =>
    intro b c hab hbc
    cases b with
    | nil => simp [key_lt] at hab
    | cons y ys =>
      cases c with
      | nil => simp [key_lt] at hbc
      | cons z zs =>
        simp only [key_lt, Bool.or_eq_true, decide_eq_true_eq, Bool.and_eq_true] at hab hbc ⊢
        rcases hab with h1 | ⟨rfl, h2⟩ <;> rcases hbc with g1 | ⟨rfl, g2⟩
        · left; omega
        · left; exact h1
        · left; exact g1
        · right; exact ⟨rfl, ih ys zs h2 g2⟩

theorem map_insert_append :
    ∀ m (k : List Nat) (v : BData), (∀ p ∈ m, key_lt p.1 k = true) →
      map_insert k v m = m ++ [(k, v)] := by
  intro m
  induction m with
  | nil => intro k v _; rfl
  | cons p rest ih =>
    intro k v h
    obtain ⟨k', v'⟩ := p
    have hk' : key_lt k' k = true := h (k', v') (by simp)
    have h1 : key_lt k k' = false := key_lt_asymm k' k hk'
    have h2 : k ≠ k' := fun he => key_lt_ne k' k hk' he.symm
    simp only [map_insert, h1, Bool.false_eq_true, if_false, if_neg h2, List.cons_append,
      List.cons.injEq, true_and]
    exact ih k v (fun q hq => h q (by simp [hq]))

theorem keys_sorted_cons :
    ∀ (k : List Nat) (v : BData) m, keys_sorted ((k, v) :: m) = true →
      keys_sorted m = true ∧ ∀ p ∈ m, key_lt k p.1 = true := by
  intro k v m
  induction m generalizing k v with
  | nil => intro; exact ⟨rfl, by simp⟩
  | cons q rest ih =>
    intro h
    obtain ⟨k2, v2⟩ := q
    simp only [keys_sorted, Bool.and_eq_true] at h
    obtain ⟨hlt, hrest⟩ := h
    obtain ⟨hr, hall⟩ := ih k2 v2 hrest
    refine ⟨hrest, ?_⟩
    rintro p hp
    rcases List.mem_cons.mp hp with rfl | hp'
    · exact hlt
    · exact key_lt_trans k k2 p.1 hlt (hall p hp')

/-! ## Parser lemmas on encoded tokens -/

theorem parse_number_loop_digits :
    ∀ (ds : List Nat) (symb : Bool) (num rest : List Nat),
      (∀ c ∈ ds, 48 ≤ c ∧ c ≤ 57) →
      parse_number_loop symb num (ds ++ 101 :: rest) = .ok (num ++ ds, rest) := by
  intro ds
  induction ds with
  | nil =>
    intro symb num rest _
    simp [parse_number_loop]
  | cons d ds ih =>
    intro symb num rest h
    have hd : 48 ≤ d ∧ d ≤ 57 := h d (by simp)
    simp only [List.cons_append, parse_number_loop, if_pos hd, List.append_eq]
    rw [ih symb (num ++ [d]) rest (fun c hc => h c (by simp [hc]))]
    simp

theorem parse_string_len_digits :
    ∀ (ds : List Nat) (a : Nat) (rest : List Nat),
      (∀ c ∈ ds, 48 ≤ c ∧ c ≤ 57) →
      parse_string_len a (ds ++ 58 :: rest)
        = .ok (List.foldl (fun x c => x * 10 + (c - 48)) a ds, rest) := by
  intro ds
  induction ds with
  | nil =>
    intro a rest _
    simp [parse_string_len]
  | cons d ds ih =>
    intro a rest h
    have hd : 48 ≤ d ∧ d ≤ 57 := h d (by simp)
    simp only [List.cons_append, parse_string_len, if_pos hd, List.append_eq]
    rw [ih (a * 10 + (d - 48)) rest (fun c hc => h c (by simp [hc]))]
    simp

theorem parse_string_take_append :
    ∀ (xs rest : List Nat), parse_string_take xs.length (xs ++ rest) = .ok (xs, rest) := by
  intro xs
  induction xs with
  | nil => intro rest; rfl
  | cons x xs ih =>
    intro rest
    simp only [List.length_cons, List.cons_append, parse_string_take, List.append_eq, ih]

theorem parse_string_enc :
    ∀ (l rest : List Nat),
      parse_string (nat_digits l.length ++ 58 :: (l ++ rest)) = .ok (.bstring l, rest) := by
  intro l rest
  have hlen : parse_string_len 0 (nat_digits l.length ++ 58 :: (l ++ rest))
      = .ok (l.length, l ++ rest) := by
    rw [parse_string_len_digits (nat_digits l.length) 0 (l ++ rest)
      (nat_digits_mem l.length)]
    have : List.foldl (fun x c => x * 10 + (c - 48)) 0 (nat_digits l.length)
        = digits_val (nat_digits l.length) := rfl
    rw [this, digits_val_nat_digits]
  simp only [parse_string, hlen, parse_string_take_append]

theorem rust_parse_i32_int_digits :
    ∀ n : Int, -2147483648 ≤ n → n ≤ 2147483647 →
      rust_parse_i32 (int_digits n) = some n := by
  intro n h1 h2
  by_cases hn : n < 0
  · have habs : (n.natAbs : Int) = -n := by omega
    have hne : nat_digits n.natAbs ≠ [] := nat_digits_ne_nil n.natAbs
    have hall : (nat_digits n.natAbs).all (fun d => decide (48 ≤ d ∧ d ≤ 57)) = true := by
      simp only [List.all_eq_true, decide_eq_true_eq]
      exact nat_digits_mem n.natAbs
    simp only [int_digits, if_pos hn, rust_parse_i32, or_true, if_true]
    rw [if_neg hne, if_pos hall]
    simp only [digits_val_nat_digits, habs, neg_neg]
    rw [if_pos ⟨h1, h2⟩]
  · push_neg at hn
    obtain ⟨c, r, hcr⟩ : ∃ c r, nat_digits n.toNat = c :: r := by
      cases h : nat_digits n.toNat with
      | nil => exact absurd h (nat_digits_ne_nil n.toNat)
      | cons c r => exact ⟨c, r, rfl⟩
    have hc : 48 ≤ c ∧ c ≤ 57 := nat_digits_mem n.toNat c (by rw [hcr]; simp)
    have hcs : ¬(c = 43 ∨ c = 45) := by omega
    have hall : (c :: r).all (fun d => decide (48 ≤ d ∧ d ≤ 57)) = true := by
      simp only [List.all_eq_true, decide_eq_true_eq]
      intro d hd
      exact nat_digits_mem n.toNat d (by rw [hcr]; exact hd)
    have hval : digits_val (c :: r) = n.toNat := by
      rw [← hcr, digits_val_nat_digits]
    have hc45 : c ≠ 45 := by omega
    have htn : (n.toNat : Int) = n := Int.toNat_of_nonneg hn
    simp only [int_digits, if_neg (not_lt.mpr hn)]
    rw [hcr]
    simp only [rust_parse_i32]
    rw [if_neg hcs]
    rw [if_neg (by simp : ¬(c :: r = []))]
    rw [if_pos hall]
    simp only [hval, if_neg hc45, htn]
    rw [if_pos ⟨h1, h2⟩]

theorem int_digits_shape :
    ∀ n : Int, int_digits n = nat_digits n.toNat ∨
      int_digits n = 45 :: nat_digits n.natAbs := by
  intro n
  by_cases hn : n < 0
  · right; simp [int_digits, hn]
  · left; simp [int_digits, hn]

theorem int_digits_ascii : ∀ (n : Int) (c : Nat), c ∈ int_digits n → c ≤ 127 := by
  intro n c hc
  rcases int_digits_shape n with h | h <;> rw [h] at hc
  · exact (nat_digits_mem _ c hc).2.trans (by omega)
  · rcases List.mem_cons.mp hc with rfl | hc'
    · omega
    · exact (nat_digits_mem _ c hc').2.trans (by omega)

theorem parse_number_loop_int_digits :
    ∀ (n : Int) (rest : List Nat),
      parse_number_loop false [] (int_digits n ++ 101 :: rest) = .ok (int_digits n, rest) := by
  intro n rest
  by_cases hn : n < 0
  · simp only [int_digits, if_pos hn, List.cons_append]
    have h45 : ¬(48 ≤ 45 ∧ 45 ≤ 57) := by omega
    simp only [parse_number_loop, if_neg h45, or_true, if_true, Bool.false_eq_true, if_false,
      List.nil_append]
    rw [parse_number_loop_digits (nat_digits n.natAbs) true [45] rest (nat_digits_mem _)]
    rfl
  · simp only [int_digits, if_neg hn]
    rw [parse_number_loop_digits (nat_digits n.toNat) false [] rest (nat_digits_mem _)]
    rfl

theorem parse_number_enc :
    ∀ (n : Int) (rest : List Nat), -2147483648 ≤ n → n ≤ 2147483647 →
      parse_number (105 :: (int_digits n ++ 101 :: rest)) = .ok (.number n, rest) := by
  intro n rest h1 h2
  have hutf : utf8_valid (int_digits n) = true :=
    utf8_valid_ascii _ (int_digits_ascii n)
  simp only [parse_number, if_pos rfl, parse_number_loop_int_digits n rest, hutf, if_true,
    rust_parse_i32_int_digits n h1 h2]

/-! ## Structural induction over the nested value type, encoder shape lemmas -/

theorem BData.deep_ind (P : BData → Prop)
    (hbs : ∀ s, P (.bstring s)) (hn : ∀ n, P (.number n))
    (hl : ∀ l, (∀ x ∈ l, P x) → P (.list l))
    (hd : ∀ m, (∀ p ∈ m, P p.2) → P (.dict m)) :
    ∀ v, P v := fun v =>
  match v with
  | .bstring s => hbs s
  | .number n => hn n
  | .list l => hl l (fun x hx => BData.deep_ind P hbs hn hl hd x)
  | .dict m => hd m (fun p hp => BData.deep_ind P hbs hn hl hd p.2)
termination_by v => sizeOf v
decreasing_by
  · have h := List.sizeOf_lt_of_mem hx
    simp only [BData.list.sizeOf_spec]
    omega
  · have h := List.sizeOf_lt_of_mem hp
    have h2 : sizeOf p.2 < sizeOf p := by
      obtain ⟨a, b⟩ := p
      simp
    simp only [BData.dict.sizeOf_spec]
    omega

theorem valid_items_mem : ∀ l, valid_items l = true → ∀ x ∈ l, valid x = true := by
  intro l
  induction l with
  | nil => intro _ x hx; cases hx
  | cons y ys ih =>
    intro h x hx
    simp only [valid_items, Bool.and_eq_true] at h
    rcases List.mem_cons.mp hx with rfl | hx'
    · exact h.1
    · exact ih h.2 x hx'

theorem valid_pairs_mem :
    ∀ m, valid_pairs m = true → ∀ p ∈ m, utf8_valid p.1 = true ∧ valid p.2 = true := by
  intro m
  induction m with
  | nil => intro _ p hp; cases hp
  | cons q qs ih =>
    intro h p hp
    obtain ⟨k, v⟩ := q
    simp only [valid_pairs, Bool.and_eq_true] at h
    rcases List.mem_cons.mp hp with rfl | hp'
    · exact ⟨h.1.1, h.1.2⟩
    · exact ih h.2 p hp'

theorem stringify_items_ok :
    ∀ l, (∀ x ∈ l, ∃ bs, stringify x = .ok bs) → ∃ its, stringify_items l = .ok its := by
  intro l
  induction l with
  | nil => intro _; exact ⟨[], rfl⟩
  | cons x xs ih =>
    intro h
    obtain ⟨s, hs⟩ := h x (by simp)
    obtain ⟨r, hr⟩ := ih (fun y hy => h y (by simp [hy]))
    exact ⟨s ++ r, by simp [stringify_items, hs, hr]⟩

theorem stringify_dict_items_ok :
    ∀ m, (∀ p ∈ m, ∃ bs, stringify p.2 = .ok bs) →
      ∃ its, stringify_dict_items m = .ok its := by
  intro m
  induction m with
  | nil => intro _; exact ⟨[], rfl⟩
  | cons q qs ih =>
    intro h
    obtain ⟨k, v⟩ := q
    obtain ⟨s, hs⟩ := h (k, v) (by simp)
    obtain ⟨r, hr⟩ := ih (fun p hp => h p (by simp [hp]))
    exact ⟨(nat_digits k.length ++ 58 :: k) ++ s ++ r,
      by simp [stringify_dict_items, stringify_string, hs, hr]⟩

/-- `stringify` never returns `Err`: both error branches of
`stringify_list`/`stringify_dict` are unreachable because
`stringify_string` and `stringify_number` are total. -/
theorem stringify_total : ∀ v, ∃ bs, stringify v = .ok bs := by
  intro v
  induction v using BData.deep_ind with
  | hbs s => exact ⟨_, rfl⟩
  | hn n => exact ⟨_, rfl⟩
  | hl l ih =>
    obtain ⟨its, hits⟩ := stringify_items_ok l ih
    exact ⟨108 :: its ++ [101], by simp [stringify, hits]⟩
  | hd m ih =>
    obtain ⟨its, hits⟩ := stringify_dict_items_ok m ih
    exact ⟨100 :: its ++ [101], by simp [stringify, hits]⟩

/-- Every encoding starts with a byte that `parse_data` dispatches on
(an ASCII digit, `i`, `l` or `d`); in particular never `e` and never empty. -/
theorem stringify_head :
    ∀ v d, stringify v = .ok d →
      ∃ c t, d = c :: t ∧ ((48 ≤ c ∧ c ≤ 57) ∨ c = 105 ∨ c = 108 ∨ c = 100) := by
  intro v d hv
  cases v with
  | bstring s =>
    obtain ⟨c, t, hct⟩ : ∃ c t, nat_digits s.length = c :: t := by
      cases h : nat_digits s.length with
      | nil => exact absurd h (nat_digits_ne_nil s.length)
      | cons c t => exact ⟨c, t, rfl⟩
    have hc := nat_digits_mem s.length c (by rw [hct]; simp)
    simp only [stringify, stringify_string, Except.ok.injEq] at hv
    exact ⟨c, t ++ 58 :: s, by rw [← hv, hct]; simp, Or.inl hc⟩
  | number n =>
    simp only [stringify, stringify_number, Except.ok.injEq] at hv
    exact ⟨105, int_digits n ++ [101], by rw [← hv]; simp, by simp⟩
  | list l =>
    simp only [stringify] at hv
    cases hits : stringify_items l with
    | ok its =>
      rw [hits] at hv
      simp only [Except.ok.injEq] at hv
      exact ⟨108, its ++ [101], by rw [← hv]; simp, by simp⟩
    | error e => rw [hits] at hv; cases hv
  | dict m =>
    simp only [stringify] at hv
    cases hits : stringify_dict_items m with
    | ok its =>
      rw [hits] at hv
      simp only [Except.ok.injEq] at hv
      exact ⟨100, its ++ [101], by rw [← hv]; simp, by simp⟩
    | error e => rw [hits] at hv; cases hv

/-! ## Round-trip: parsing an encoding of a valid value returns that value -/

theorem parse_list_loop_enc :
    ∀ (xs : List BData),
      (∀ x ∈ xs, ∀ d, stringify x = .ok d → ∀ f rest, d.length ≤ f →
        parse_data f (d ++ rest) = .ok (x, rest)) →
      ∀ its, stringify_items xs = .ok its →
      ∀ f acc rest, its.length < f →
        parse_list_loop f acc (its ++ 101 :: rest) = .ok (.list (acc ++ xs), rest) := by
  intro xs
  induction xs with
  | nil =>
    intro _ its hits f acc rest hf
    simp only [stringify_items, Except.ok.injEq] at hits
    subst hits
    obtain ⟨f', rfl⟩ : ∃ f', f = f' + 1 := ⟨f - 1, by omega⟩
    simp [parse_list_loop]
  | cons x xs ih =>
    intro hrt its hits f acc rest hf
    simp only [stringify_items] at hits
    cases hsx : stringify x with
    | error e => rw [hsx] at hits; simp at hits
    | ok s =>
      rw [hsx] at hits
      cases hsr : stringify_items xs with
      | error e => rw [hsr] at hits; simp at hits
      | ok r =>
        rw [hsr] at hits
        simp only [Except.ok.injEq] at hits
        subst hits
        obtain ⟨c, t, hct, hcls⟩ := stringify_head x s hsx
        have hc101 : c ≠ 101 := by rcases hcls with h | h | h | h <;> omega
        have hlen : s.length + r.length < f := by
          simp only [List.length_append] at hf
          omega
        obtain ⟨f', rfl⟩ : ∃ f', f = f' + 1 := ⟨f - 1, by omega⟩
        have hin : (s ++ r) ++ 101 :: rest = c :: (t ++ (r ++ 101 :: rest)) := by
          rw [hct]; simp
        rw [hin]
        simp only [parse_list_loop]
        rw [if_neg hc101]
        have hin2 : c :: (t ++ (r ++ 101 :: rest)) = s ++ (r ++ 101 :: rest) := by
          rw [hct]; simp
        rw [hin2]
        have hs1 : 1 ≤ s.length := by rw [hct]; simp
        rw [hrt x (by simp) s hsx f' (r ++ 101 :: rest) (by omega)]
        show parse_list_loop f' (acc ++ [x]) (r ++ 101 :: rest)
          = .ok (.list (acc ++ x :: xs), rest)
        rw [ih (fun y hy => hrt y (by simp [hy])) r hsr f' (acc ++ [x]) rest (by omega)]
        simp

theorem parse_dict_loop_enc :
    ∀ (ps : List (List Nat × BData)),
      (∀ p ∈ ps, ∀ d, stringify p.2 = .ok d → ∀ f rest, d.length ≤ f →
        parse_data f (d ++ rest) = .ok (p.2, rest)) →
      valid_pairs ps = true →
      keys_sorted ps = true →
      ∀ its, stringify_dict_items ps = .ok its →
      ∀ f m rest, its.length < f →
        (∀ p ∈ m, ∀ q ∈ ps, key_lt p.1 q.1 = true) →
        parse_dict_loop f m (its ++ 101 :: rest) = .ok (.dict (m ++ ps), rest) := by
  intro ps
  induction ps with
  | nil =>
    intro _ _ _ its hits f m rest hf _
    simp only [stringify_dict_items, Except.ok.injEq] at hits
    subst hits
    obtain ⟨f', rfl⟩ : ∃ f', f = f' + 1 := ⟨f - 1, by omega⟩
    simp [parse_dict_loop]
  | cons q ps ih =>
    intro hrt hvp hks its hits f m rest hf hm
    obtain ⟨k, v⟩ := q
    simp only [stringify_dict_items, stringify_string] at hits
    cases hsv : stringify v with
    | error e => rw [hsv] at hits; simp at hits
    | ok vs =>
      rw [hsv] at hits
      cases hsr : stringify_dict_items ps with
      | error e => rw [hsr] at hits; simp at hits
      | ok r =>
        rw [hsr] at hits
        simp only [Except.ok.injEq] at hits
        subst hits
        simp only [valid_pairs, Bool.and_eq_true] at hvp
        obtain ⟨⟨hutf, hvv⟩, hvps⟩ := hvp
        obtain ⟨hks', hkall⟩ := keys_sorted_cons k v ps hks
        obtain ⟨c, t, hct⟩ : ∃ c t, nat_digits k.length = c :: t := by
          cases h : nat_digits k.length with
          | nil => exact absurd h (nat_digits_ne_nil k.length)
          | cons c t => exact ⟨c, t, rfl⟩
        have hcd := nat_digits_mem k.length c (by rw [hct]; simp)
        have hc101 : c ≠ 101 := by omega
        have hlen : (nat_digits k.length).length + k.length + 1 + vs.length + r.length < f := by
          simp only [List.length_append, List.length_cons] at hf
          omega
        obtain ⟨f', rfl⟩ : ∃ f', f = f' + 1 := ⟨f - 1, by omega⟩
        have hin : ((nat_digits k.length ++ 58 :: k) ++ vs ++ r) ++ 101 :: rest
            = c :: (t ++ 58 :: (k ++ (vs ++ (r ++ 101 :: rest)))) := by
          rw [hct]; simp
        rw [hin]
        simp only [parse_dict_loop]
        rw [if_neg hc101]
        have hin2 : c :: (t ++ 58 :: (k ++ (vs ++ (r ++ 101 :: rest))))
            = nat_digits k.length ++ 58 :: (k ++ (vs ++ (r ++ 101 :: rest))) := by
          rw [hct]; simp
        rw [hin2, parse_string_enc k (vs ++ (r ++ 101 :: rest))]
        show (if utf8_valid k = true then _ else _) = _
        rw [if_pos hutf]
        have hnd1 : 1 ≤ (nat_digits k.length).length := by rw [hct]; simp
        rw [hrt (k, v) (by simp) vs hsv f' (r ++ 101 :: rest) (by omega)]
        show parse_dict_loop f' (map_insert k v m) (r ++ 101 :: rest)
          = .ok (.dict (m ++ (k, v) :: ps), rest)
        rw [map_insert_append m k v (fun p hp => hm p hp (k, v) (by simp))]
        have hm' : ∀ p ∈ m ++ [(k, v)], ∀ q ∈ ps, key_lt p.1 q.1 = true := by
          intro p hp q hq
          rcases List.mem_append.mp hp with hp' | hp'
          · exact hm p hp' q (by simp [hq])
          · rcases List.mem_singleton.mp hp' with rfl
            exact hkall q hq
        rw [ih (fun p hp => hrt p (by simp [hp])) hvps hks' r hsr f' (m ++ [(k, v)]) rest
          (by omega) hm']
        simp

theorem parse_data_enc :
    ∀ v, valid v = true → ∀ d, stringify v = .ok d → ∀ f rest, d.length ≤ f →
      parse_data f (d ++ rest) = .ok (v, rest) := by
  intro v
  induction v using BData.deep_ind with
  | hbs s =>
    intro _ d hd f rest hf
    simp only [stringify, stringify_string, Except.ok.injEq] at hd
    subst hd
    obtain ⟨c, t, hct⟩ : ∃ c t, nat_digits s.length = c :: t := by
      cases h : nat_digits s.length with
      | nil => exact absurd h (nat_digits_ne_nil s.length)
      | cons c t => exact ⟨c, t, rfl⟩
    have hcd := nat_digits_mem s.length c (by rw [hct]; simp)
    have hf1 : 1 ≤ f := by
      simp only [List.length_append, List.length_cons] at hf
      omega
    obtain ⟨f', rfl⟩ : ∃ f', f = f' + 1 := ⟨f - 1, by omega⟩
    have hin : (nat_digits s.length ++ 58 :: s) ++ rest
        = c :: (t ++ 58 :: (s ++ rest)) := by
      rw [hct]; simp
    rw [hin]
    simp only [parse_data]
    rw [if_pos hcd]
    have hin2 : c :: (t ++ 58 :: (s ++ rest)) = nat_digits s.length ++ 58 :: (s ++ rest) := by
      rw [hct]; simp
    rw [hin2, parse_string_enc s rest]
  | hn n =>
    intro hv d hd f rest hf
    simp only [valid, decide_eq_true_eq] at hv
    simp only [stringify, stringify_number, Except.ok.injEq] at hd
    subst hd
    obtain ⟨f', rfl⟩ : ∃ f', f = f' + 1 := ⟨f - 1, by simp at hf; omega⟩
    have hin : (105 :: int_digits n ++ [101]) ++ rest = 105 :: (int_digits n ++ 101 :: rest) := by
      simp
    rw [hin]
    simp only [parse_data]
    rw [if_neg (by omega : ¬(48 ≤ 105 ∧ 105 ≤ 57))]
    simp only [if_true]
    exact parse_number_enc n rest hv.1 hv.2
  | hl l ihl =>
    intro hv d hd f rest hf
    simp only [valid] at hv
    simp only [stringify] at hd
    cases hits : stringify_items l with
    | error e => rw [hits] at hd; simp at hd
    | ok its =>
      rw [hits] at hd
      simp only [Except.ok.injEq] at hd
      subst hd
      obtain ⟨f', rfl⟩ : ∃ f', f = f' + 1 := ⟨f - 1, by simp at hf; omega⟩
      have hin : (108 :: its ++ [101]) ++ rest = 108 :: (its ++ 101 :: rest) := by simp
      rw [hin]
      simp only [parse_data]
      rw [if_neg (by omega : ¬(48 ≤ 108 ∧ 108 ≤ 57)), if_neg (by omega : ¬(108 = 105))]
      simp only [if_true]
      have hrt : ∀ x ∈ l, ∀ d₀, stringify x = .ok d₀ → ∀ f₀ rest₀, d₀.length ≤ f₀ →
          parse_data f₀ (d₀ ++ rest₀) = .ok (x, rest₀) :=
        fun x hx => ihl x hx (valid_items_mem l hv x hx)
      rw [parse_list_loop_enc l hrt its hits f' [] rest (by simp at hf; omega)]
      simp
  | hd m ihd =>
    intro hv d hd f rest hf
    simp only [valid, Bool.and_eq_true] at hv
    obtain ⟨hks, hvp⟩ := hv
    simp only [stringify] at hd
    cases hits : stringify_dict_items m with
    | error e => rw [hits] at hd; simp at hd
    | ok its =>
      rw [hits] at hd
      simp only [Except.ok.injEq] at hd
      subst hd
      obtain ⟨f', rfl⟩ : ∃ f', f = f' + 1 := ⟨f - 1, by simp at hf; omega⟩
      have hin : (100 :: its ++ [101]) ++ rest = 100 :: (its ++ 101 :: rest) := by simp
      rw [hin]
      simp only [parse_data]
      rw [if_neg (by omega : ¬(48 ≤ 100 ∧ 100 ≤ 57)), if_neg (by omega : ¬(100 = 105)),
        if_neg (by omega : ¬(100 = 108))]
      simp only [if_true]
      have hrt : ∀ p ∈ m, ∀ d₀, stringify p.2 = .ok d₀ → ∀ f₀ rest₀, d₀.length ≤ f₀ →
          parse_data f₀ (d₀ ++ rest₀) = .ok (p.2, rest₀) :=
        fun p hp => ihd p hp (valid_pairs_mem m hvp p hp).2
      rw [parse_dict_loop_enc m hrt hvp hks its hits f' [] rest (by simp at hf; omega)
        (by simp)]
      simp

/-- Top-level round trip: parsing the encoding of any valid value gives the
value back. -/
theorem parse_stringify :
    ∀ v d, valid v = true → stringify v = .ok d → parse d = .ok v := by
  intro v d hv hd
  have h := parse_data_enc v hv d hd (2 * d.length + 2) [] (by omega)
  rw [List.append_nil] at h
  simp [parse, h, Except.map]

/-! ## The parser's dictionary-ordering invariant -/

theorem key_lt_conn : ∀ a b : List Nat, a ≠ b → key_lt a b = true ∨ key_lt b a = true := by
  intro a
  induction a with
  | nil =>
    intro b hne
    cases b with
    | nil => exact absurd rfl hne
    | cons y ys => left; rfl
  | cons x xs ih =>
    intro b hne
    cases b with
    | nil => right; rfl
    | cons y ys =>
      by_cases hxy : x = y
      · subst hxy
        have hne' : xs ≠ ys := fun h => hne (by rw [h])
        rcases ih ys hne' with h | h
        · left; simp [key_lt, h]
        · right; simp [key_lt, h]
      · rcases Nat.lt_or_ge x y with h | h
        · left; simp [key_lt, h]
        · have hlt : y < x := by omega
          right; simp [key_lt, hlt]

theorem keys_sorted_cons_iff :
    ∀ (k : List Nat) (v : BData) m, keys_sorted ((k, v) :: m) = true ↔
      (keys_sorted m = true ∧ ∀ p ∈ m, key_lt k p.1 = true) := by
  intro k v m
  constructor
  · exact keys_sorted_cons k v m
  · rintro ⟨hm, hall⟩
    cases m with
    | nil => rfl
    | cons q rest =>
      obtain ⟨k2, v2⟩ := q
      simp only [keys_sorted, Bool.and_eq_true]
      exact ⟨hall (k2, v2) (by simp), hm⟩

theorem mem_map_insert :
    ∀ m (k : List Nat) (v : BData) p, p ∈ map_insert k v m → p = (k, v) ∨ p ∈ m := by
  intro m
  induction m with
  | nil =>
    intro k v p hp
    simp only [map_insert, List.mem_singleton] at hp
    exact Or.inl hp
  | cons q rest ih =>
    intro k v p hp
    obtain ⟨k', v'⟩ := q
    simp only [map_insert] at hp
    by_cases h1 : key_lt k k' = true
    · rw [if_pos h1] at hp
      rcases List.mem_cons.mp hp with rfl | hp'
      · exact Or.inl rfl
      · exact Or.inr hp'
    · rw [if_neg h1] at hp
      by_cases h2 : k = k'
      · rw [if_pos h2] at hp
        rcases List.mem_cons.mp hp with rfl | hp'
        · exact Or.inl rfl
        · exact Or.inr (by simp [hp'])
      · rw [if_neg h2] at hp
        rcases List.mem_cons.mp hp with rfl | hp'
        · exact Or.inr (by simp)
        · rcases ih k v p hp' with h | h
          · exact Or.inl h
          · exact Or.inr (by simp [h])

theorem keys_sorted_map_insert :
    ∀ m (k : List Nat) (v : BData), keys_sorted m = true →
      keys_sorted (map_insert k v m) = true := by
  intro m
  induction m with
  | nil => intro k v _; rfl
  | cons q rest ih =>
    intro k v hs
    obtain ⟨k', v'⟩ := q
    obtain ⟨hr, hall⟩ := keys_sorted_cons k' v' rest hs
    simp only [map_insert]
    by_cases h1 : key_lt k k' = true
    · rw [if_pos h1]
      refine (keys_sorted_cons_iff k v _).mpr ⟨hs, ?_⟩
      intro p hp
      rcases List.mem_cons.mp hp with rfl | hp'
      · exact h1
      · exact key_lt_trans k k' p.1 h1 (hall p hp')
    · rw [if_neg h1]
      by_cases h2 : k = k'
      · rw [if_pos h2]
        subst h2
        exact (keys_sorted_cons_iff k v rest).mpr ⟨hr, hall⟩
      · rw [if_neg h2]
        refine (keys_sorted_cons_iff k' v' _).mpr ⟨ih k v hr, ?_⟩
        intro p hp
        rcases mem_map_insert rest k v p hp with rfl | hp'
        · rcases key_lt_conn k k' h2 with h | h
          · exact absurd h h1
          · exact h
        · exact hall p hp'

theorem dicts_sorted_items_of :
    ∀ l, (∀ x ∈ l, dicts_sorted x = true) → dicts_sorted_items l = true := by
  intro l
  induction l with
  | nil => intro _; rfl
  | cons x xs ih =>
    intro h
    simp only [dicts_sorted_items, Bool.and_eq_true]
    exact ⟨h x (by simp), ih (fun y hy => h y (by simp [hy]))⟩

theorem dicts_sorted_pairs_of :
    ∀ m, (∀ p ∈ m, dicts_sorted p.2 = true) → dicts_sorted_pairs m = true := by
  intro m
  induction m with
  | nil => intro _; rfl
  | cons q qs ih =>
    intro h
    obtain ⟨k, v⟩ := q
    simp only [dicts_sorted_pairs, Bool.and_eq_true]
    exact ⟨h (k, v) (by simp), ih (fun p hp => h p (by simp [hp]))⟩

theorem parse_string_shape :
    ∀ s v s', parse_string s = .ok (v, s') → ∃ bs, v = .bstring bs := by
  intro s v s' h
  simp only [parse_string] at h
  split at h
  · split at h
    · rename_i bs r heq2
      simp only [Except.ok.injEq, Prod.mk.injEq] at h
      exact ⟨bs, h.1.symm⟩
    · simp at h
  · simp at h

theorem parse_number_shape :
    ∀ s v s', parse_number s = .ok (v, s') → ∃ n, v = .number n := by
  intro s v s' h
  match s with
  | [] => simp [parse_number] at h
  | c :: rest =>
    simp only [parse_number] at h
    by_cases hc : c = 105
    · rw [if_pos hc] at h
      split at h
      · simp at h
      · rename_i num rest' heq
        split at h
        · split at h
          · rename_i n heq2
            simp only [Except.ok.injEq, Prod.mk.injEq] at h
            exact ⟨n, h.1.symm⟩
          · simp at h
        · simp at h
    · rw [if_neg hc] at h
      simp at h

/-- Every dictionary the decoder builds is in strictly ascending key order:
the loops only extend maps through `map_insert`, which preserves the
`BTreeMap` ordering invariant. -/
theorem parse_fns_dicts_sorted :
    ∀ f : Nat,
      (∀ s v s', parse_data f s = .ok (v, s') → dicts_sorted v = true) ∧
      (∀ acc s v s', (∀ x ∈ acc, dicts_sorted x = true) →
        parse_list_loop f acc s = .ok (v, s') → dicts_sorted v = true) ∧
      (∀ m s v s', keys_sorted m = true → (∀ p ∈ m, dicts_sorted p.2 = true) →
        parse_dict_loop f m s = .ok (v, s') → dicts_sorted v = true) := by
  intro f
  induction f with
  | zero =>
    refine ⟨?_, ?_, ?_⟩
    · intro s v s' h; simp [parse_data] at h
    · intro acc s v s' _ h; simp [parse_list_loop] at h
    · intro m s v s' _ _ h; simp [parse_dict_loop] at h
  | succ f ih =>
    obtain ⟨ihP, ihQ, ihR⟩ := ih
    refine ⟨?_, ?_, ?_⟩
    · intro s v s' h
      match s with
      | [] => simp [parse_data] at h
      | c :: rest =>
        simp only [parse_data] at h
        by_cases h1 : 48 ≤ c ∧ c ≤ 57
        · rw [if_pos h1] at h
          obtain ⟨bs, rfl⟩ := parse_string_shape _ _ _ h
          rfl
        · rw [if_neg h1] at h
          by_cases h2 : c = 105
          · rw [if_pos h2] at h
            obtain ⟨n, rfl⟩ := parse_number_shape _ _ _ h
            rfl
          · rw [if_neg h2] at h
            by_cases h3 : c = 108
            · rw [if_pos h3] at h
              exact ihQ [] rest v s' (by simp) h
            · rw [if_neg h3] at h
              by_cases h4 : c = 100
              · rw [if_pos h4] at h
                exact ihR [] rest v s' rfl (by simp) h
              · rw [if_neg h4] at h
                simp at h
    · intro acc s v s' hacc h
      match s with
      | [] => simp [parse_list_loop] at h
      | c :: rest =>
        simp only [parse_list_loop] at h
        by_cases h1 : c = 101
        · rw [if_pos h1] at h
          simp only [Except.ok.injEq, Prod.mk.injEq] at h
          obtain ⟨h5, h6⟩ := h
          subst h5
          exact dicts_sorted_items_of acc hacc
        · rw [if_neg h1] at h
          split at h
          · rename_i d s₂ heq
            refine ihQ (acc ++ [d]) s₂ v s' ?_ h
            intro x hx
            rcases List.mem_append.mp hx with hx' | hx'
            · exact hacc x hx'
            · rcases List.mem_singleton.mp hx' with rfl
              exact ihP _ _ _ heq
          · simp at h
    · intro m s v s' hks hpm h
      match s with
      | [] => simp [parse_dict_loop] at h
      | c :: rest =>
        simp only [parse_dict_loop] at h
        by_cases h1 : c = 101
        · rw [if_pos h1] at h
          simp only [Except.ok.injEq, Prod.mk.injEq] at h
          obtain ⟨h5, h6⟩ := h
          subst h5
          simp only [dicts_sorted, Bool.and_eq_true]
          exact ⟨hks, dicts_sorted_pairs_of m hpm⟩
        · rw [if_neg h1] at h
          split at h
          · rename_i k s₂ heq
            by_cases hu : utf8_valid k = true
            · rw [if_pos hu] at h
              split at h
              · rename_i v₂ s₃ heq2
                refine ihR (map_insert k v₂ m) s₃ v s'
                  (keys_sorted_map_insert m k v₂ hks) ?_ h
                intro p hp
                rcases mem_map_insert m k v₂ p hp with rfl | hp'
                · exact ihP _ _ _ heq2
                · exact hpm p hp'
              · simp at h
            · rw [if_neg hu] at h
              exact ihR m s₂ v s' hks hpm h
          · simp at h
          · simp at h

/-- Top-level corollary: any value `parse` returns satisfies the recursive
dictionary-ordering invariant. -/
theorem parse_dicts_sorted :
    ∀ src v, parse src = .ok v → dicts_sorted v = true := by
  intro src v h
  simp only [parse] at h
  cases hp : parse_data (2 * src.length + 2) src with
  | error e => rw [hp] at h; simp [Except.map] at h
  | ok p =>
    obtain ⟨w, s'⟩ := p
    rw [hp] at h
    simp only [Except.map, Except.ok.injEq] at h
    subst h
    exact (parse_fns_dicts_sorted (2 * src.length + 2)).1 src w s' hp

/-! ## Helpers for the overflow and duplicate-key claims -/

theorem map_lookup_insert :
    ∀ m (k : List Nat) (v : BData), map_lookup k (map_insert k v m) = some v := by
  intro m
  induction m with
  | nil => intro k v; simp [map_insert, map_lookup]
  | cons q rest ih =>
    intro k v
    obtain ⟨k', v'⟩ := q
    simp only [map_insert]
    by_cases h1 : key_lt k k' = true
    · rw [if_pos h1]; simp [map_lookup]
    · rw [if_neg h1]
      by_cases h2 : k = k'
      · rw [if_pos h2]; simp [map_lookup]
      · rw [if_neg h2]
        simp [map_lookup, h2, ih]

theorem rust_parse_i32_overflow_pos :
    ∀ ds : List Nat, ds ≠ [] → (∀ c ∈ ds, 48 ≤ c ∧ c ≤ 57) →
      2147483647 < digits_val ds → rust_parse_i32 ds = none := by
  intro ds hne hd hov
  match ds with
  | [] => exact absurd rfl hne
  | c :: r =>
    have hc := hd c (by simp)
    have hcs : ¬(c = 43 ∨ c = 45) := by omega
    have hall : (c :: r).all (fun d => decide (48 ≤ d ∧ d ≤ 57)) = true := by
      simp only [List.all_eq_true, decide_eq_true_eq]
      exact fun d hdm => hd d hdm
    have hc45 : c ≠ 45 := by omega
    have hbig : (2147483647 : Int) < (digits_val (c :: r) : Int) := by exact_mod_cast hov
    simp only [rust_parse_i32]
    rw [if_neg hcs]
    rw [if_neg (by simp : ¬(c :: r = []))]
    rw [if_pos hall]
    simp only [if_neg hc45]
    rw [if_neg (by omega)]

theorem rust_parse_i32_overflow_neg :
    ∀ ds : List Nat, ds ≠ [] → (∀ c ∈ ds, 48 ≤ c ∧ c ≤ 57) →
      2147483648 < digits_val ds → rust_parse_i32 (45 :: ds) = none := by
  intro ds hne hd hov
  have hall : ds.all (fun d => decide (48 ≤ d ∧ d ≤ 57)) = true := by
    simp only [List.all_eq_true, decide_eq_true_eq]
    exact fun d hdm => hd d hdm
  have hbig : (2147483648 : Int) < (digits_val ds : Int) := by exact_mod_cast hov
  simp only [rust_parse_i32, or_true, if_true]
  rw [if_neg hne, if_pos hall]
  rw [if_neg (by omega)]

theorem parse_number_overflow_pos :
    ∀ ds : List Nat, ds ≠ [] → (∀ c ∈ ds, 48 ≤ c ∧ c ≤ 57) →
      2147483647 < digits_val ds →
      parse_number (105 :: (ds ++ [101])) = .error .parseFailure := by
  intro ds hne hd hov
  have hutf : utf8_valid ds = true :=
    utf8_valid_ascii ds (fun c hc => (hd c hc).2.trans (by omega))
  have hloop := parse_number_loop_digits ds false [] [] hd
  simp only [List.nil_append] at hloop
  simp only [parse_number, if_pos rfl, hloop, hutf, if_true,
    rust_parse_i32_overflow_pos ds hne hd hov]

theorem parse_number_overflow_neg :
    ∀ ds : List Nat, ds ≠ [] → (∀ c ∈ ds, 48 ≤ c ∧ c ≤ 57) →
      2147483648 < digits_val ds →
      parse_number (105 :: (45 :: ds ++ [101])) = .error .parseFailure := by
  intro ds hne hd hov
  have hutf : utf8_valid (45 :: ds) = true := by
    refine utf8_valid_ascii _ ?_
    intro c hc
    rcases List.mem_cons.mp hc with rfl | hc'
    · omega
    · exact (hd c hc').2.trans (by omega)
  have hloop := parse_number_loop_digits ds true [45] [] hd
  simp only [parse_number, if_pos rfl]
  have h45 : ¬(48 ≤ 45 ∧ 45 ≤ 57) := by omega
  simp only [List.cons_append, parse_number_loop, if_neg h45, or_true, if_true,
    Bool.false_eq_true, if_false, List.nil_append, List.append_eq]
  rw [hloop]
  simp only [List.singleton_append, hutf, if_true, rust_parse_i32_overflow_neg ds hne hd hov]

theorem parse_data_dispatch_i :
    ∀ (f : Nat) (s : List Nat), parse_data (f + 1) (105 :: s) = parse_number (105 :: s) := by
  intro f s
  simp only [parse_data]
  rw [if_neg (by omega : ¬(48 ≤ 105 ∧ 105 ≤ 57))]
  simp


theorem parse_data_dispatch_d :
    ∀ (f : Nat) (s : List Nat), parse_data (f + 1) (100 :: s) = parse_dict_loop f [] s := by
  intro f s
  simp only [parse_data]
  rw [if_neg (by omega : ¬(48 ≤ 100 ∧ 100 ≤ 57)), if_neg (by omega : ¬(100 = 105)),
    if_neg (by omega : ¬(100 = 108))]
  simp

theorem parse_eq :
    ∀ s : List Nat, parse s = (parse_data ((2 * s.length + 1) + 1) s).map Prod.fst :=
  fun _ => rfl

/-- One iteration of the dictionary loop on an encoded key/value pair with a
valid-UTF-8 key: the pair is consumed and inserted, with no sortedness
assumption on the map or the key. -/
theorem parse_dict_loop_pair :
    ∀ (k : List Nat) (v : BData) (d : List Nat) (f : Nat)
      (m : List (List Nat × BData)) (rest : List Nat),
      utf8_valid k = true → valid v = true → stringify v = .ok d → d.length ≤ f →
      parse_dict_loop (f + 1) m ((nat_digits k.length ++ 58 :: k) ++ (d ++ rest))
        = parse_dict_loop f (map_insert k v m) rest := by
  intro k v d f m rest hutf hv hd hf
  obtain ⟨c, t, hct⟩ : ∃ c t, nat_digits k.length = c :: t := by
    cases h : nat_digits k.length with
    | nil => exact absurd h (nat_digits_ne_nil k.length)
    | cons c t => exact ⟨c, t, rfl⟩
  have hcd := nat_digits_mem k.length c (by rw [hct]; simp)
  have hc101 : c ≠ 101 := by omega
  have hin : (nat_digits k.length ++ 58 :: k) ++ (d ++ rest)
      = c :: (t ++ 58 :: (k ++ (d ++ rest))) := by
    rw [hct]; simp
  rw [hin]
  simp only [parse_dict_loop]
  rw [if_neg hc101]
  have hin2 : c :: (t ++ 58 :: (k ++ (d ++ rest)))
      = nat_digits k.length ++ 58 :: (k ++ (d ++ rest)) := by
    rw [hct]; simp
  rw [hin2, parse_string_enc k (d ++ rest)]
  show (if utf8_valid k = true then _ else _) = _
  rw [if_pos hutf]
  rw [parse_data_enc v hv d hd f rest hf]

/-- A dictionary consisting of the same valid-UTF-8 key encoded twice, with
any two valid values, parses to the map sending the key to the second
value: last write wins. -/
theorem parse_dict_two_pairs :
    ∀ (k : List Nat) (v1 v2 : BData) (d1 d2 : List Nat) (f : Nat),
      utf8_valid k = true → valid v1 = true → valid v2 = true →
      stringify v1 = .ok d1 → stringify v2 = .ok d2 →
      d1.length + d2.length + 3 ≤ f →
      parse_data (f + 1) (100 :: ((nat_digits k.length ++ 58 :: k) ++
          (d1 ++ ((nat_digits k.length ++ 58 :: k) ++ (d2 ++ [101])))))
        = .ok (.dict [(k, v2)], []) := by
  intro k v1 v2 d1 d2 f hk h1 h2 hd1 hd2 hf
  rw [parse_data_dispatch_d]
  obtain ⟨g, rfl⟩ : ∃ g, f = g + 1 := ⟨f - 1, by omega⟩
  rw [parse_dict_loop_pair k v1 d1 g []
    ((nat_digits k.length ++ 58 :: k) ++ (d2 ++ [101])) hk h1 hd1 (by omega)]
  obtain ⟨g', rfl⟩ : ∃ g', g = g' + 1 := ⟨g - 1, by omega⟩
  rw [parse_dict_loop_pair k v2 d2 g' (map_insert k v1 []) [101] hk h2 hd2 (by omega)]
  obtain ⟨g'', rfl⟩ : ∃ g'', g' = g'' + 1 := ⟨g' - 1, by omega⟩
  simp only [parse_dict_loop]
  simp [map_insert, key_lt_irrefl]

/-! ## The claims -/

/-- C1 is false as stated: it ranges over every already-canonical valid
document, but a canonical document whose dictionary key is not valid UTF-8
does not round-trip.  `"d1:\xff0:e"` is canonical — it is the encoder's
output on a dictionary with the single (hence trivially sorted) key `0xff`
and all forms minimal — yet `parse` fails on it with `SyntaxError`: the
dictionary loop drops the non-UTF-8 key without consuming its value, then
misparses the value position `"0:"` as a key and hits `e` where a value
should start. -/
theorem C1_roundtrip_canonical_counterexample :
    stringify (BData.dict [([255], .bstring [])])
      = .ok [100, 49, 58, 255, 48, 58, 101] ∧
    keys_sorted [([255], (BData.bstring [] : BData))] = true ∧
    parse [100, 49, 58, 255, 48, 58, 101] = .error .syntaxError :=
  ⟨rfl, rfl, rfl⟩

/-- C1 amended: round-trip on canonical input holds for canonical documents
all of whose dictionary keys are valid UTF-8 — i.e. for every output of the
encoder on a value satisfying the representation invariant `valid`
(dictionary keys strictly ascending in raw byte order and valid UTF-8,
integers in `i32` range and hence emitted in minimal form): for every such
document `D`, `parse D` succeeds and `stringify` of the result returns
exactly `D`.  Canonical documents with a non-UTF-8 dictionary key are
excluded; on those `parse` drops the key and fails (see the
counterexample). -/
theorem C1_roundtrip_canonical :
    ∀ (D : List Nat) (v : BData), valid v = true → stringify v = .ok D →
      ∃ w, parse D = .ok w ∧ stringify w = .ok D := by
  intro D v hv hD
  exact ⟨v, parse_stringify v D hv hD, hD⟩

/-- Witness for the amended C1 at the canonical document
`"d3:bar4:spam3:fooi42ee"`. -/
theorem C1_roundtrip_canonical_witness :
    valid (BData.dict [([98, 97, 114], .bstring [115, 112, 97, 109]),
      ([102, 111, 111], .number 42)]) = true ∧
    ∃ w, parse [100, 51, 58, 98, 97, 114, 52, 58, 115, 112, 97, 109, 51, 58,
        102, 111, 111, 105, 52, 50, 101, 101] = .ok w ∧
      stringify w = .ok [100, 51, 58, 98, 97, 114, 52, 58, 115, 112, 97, 109,
        51, 58, 102, 111, 111, 105, 52, 50, 101, 101] := by
  refine ⟨rfl, ?_⟩
  exact C1_roundtrip_canonical _
    (BData.dict [([98, 97, 114], .bstring [115, 112, 97, 109]),
      ([102, 111, 111], .number 42)]) rfl rfl

/-- C2 is false on the code: `parse` (src/lib.rs lines 22–26) returns
`Result<BData, ParseErr>` with no bytes-consumed count and no diagnostic;
for the input `"3:abcd"` of the claim, it returns exactly the same
`Ok(BString "abc")` as for `"3:abc"`, so the trailing byte leaves no trace
for the caller. -/
theorem C2_trailing_bytes_counterexample :
    parse [51, 58, 97, 98, 99, 100] = .ok (.bstring [97, 98, 99]) ∧
    parse [51, 58, 97, 98, 99, 100] = parse [51, 58, 97, 98, 99] :=
  ⟨rfl, rfl⟩

/-- C2 amended: the decode entry point returns only the parsed value;
trailing unconsumed bytes after a complete valid value are silently
discarded — appending arbitrary junk to any canonical document leaves the
result unchanged, with no count or warning surfaced. -/
theorem C2_trailing_bytes_amended :
    ∀ (v : BData) (D rest : List Nat), valid v = true → stringify v = .ok D →
      parse (D ++ rest) = .ok v := by
  intro v D rest hv hD
  have h := parse_data_enc v hv D hD (2 * (D ++ rest).length + 2) rest
    (by simp [List.length_append]; omega)
  show (parse_data (2 * (D ++ rest).length + 2) (D ++ rest)).map Prod.fst = .ok v
  rw [h]
  rfl

/-- Witness for the amended C2 at `"3:abc"` plus the trailing byte `'d'`. -/
theorem C2_trailing_bytes_amended_witness :
    valid (BData.bstring [97, 98, 99]) = true ∧
    stringify (BData.bstring [97, 98, 99]) = .ok [51, 58, 97, 98, 99] ∧
    parse [51, 58, 97, 98, 99, 100] = .ok (.bstring [97, 98, 99]) := by
  refine ⟨rfl, rfl, ?_⟩
  have h := C2_trailing_bytes_amended (.bstring [97, 98, 99]) [51, 58, 97, 98, 99] [100]
    rfl rfl
  simpa using h

/-- C3 is false on the code: decoding `"i-0e"` does not fail — the token
loop accepts `-0` and Rust's `"-0".parse::<i32>()` returns `Ok(0)`, so
`parse` returns `Integer(0)`. -/
theorem C3_minus_zero_counterexample :
    parse [105, 45, 48, 101] = .ok (.number 0) := rfl

/-- C3 amended: decoding `"i0e"` returns `Integer(0)`, and decoding
`"i-0e"` also succeeds, likewise returning `Integer(0)`: the code accepts
both encodings of zero rather than rejecting `i-0e`. -/
theorem C3_zero_encodings_amended :
    parse [105, 48, 101] = .ok (.number 0) ∧
    parse [105, 45, 48, 101] = .ok (.number 0) :=
  ⟨rfl, rfl⟩

/-- C4 is false on the code: the token loop of `parse_number`
(src/lib.rs lines 53–60) accepts `+` exactly like `-`, so `"i+5e"` parses
successfully to `Integer(5)` instead of failing. -/
theorem C4_plus_sign_counterexample :
    parse [105, 43, 53, 101] = .ok (.number 5) := rfl

/-- C4 amended: the integer token loop accepts a single sign character,
either `+` or `-`, at any position among the digits; only a second sign
character is rejected, as `SyntaxError`.  A leading `+` yields a
successfully parsed integer (`"i+5e"` → 5); a sign placed after a digit
passes the token scan and fails only at the `i32` conversion, with
`ParseFailure` rather than `SyntaxError` (`"i1-2e"`); a second sign
anywhere is a `SyntaxError` (`"i--1e"`, and in general any sign byte
reached with the sign flag already set). -/
theorem C4_sign_handling_amended :
    parse [105, 43, 53, 101] = .ok (.number 5) ∧
    parse [105, 49, 45, 50, 101] = .error .parseFailure ∧
    parse [105, 45, 45, 49, 101] = .error .syntaxError ∧
    (∀ (num rest : List Nat) (c : Nat), c = 43 ∨ c = 45 →
      parse_number_loop true num (c :: rest) = .error .syntaxError) := by
  refine ⟨rfl, rfl, rfl, ?_⟩
  rintro num rest c (rfl | rfl) <;> simp [parse_number_loop]

/-- Witness for the amended C4: a second `+` sign hits the sign-flag check. -/
theorem C4_sign_handling_amended_witness :
    ((43 : Nat) = 43 ∨ (43 : Nat) = 45) ∧
    parse_number_loop true [] [43] = .error .syntaxError :=
  ⟨Or.inl rfl, C4_sign_handling_amended.2.2.2 [] [] 43 (Or.inl rfl)⟩

/-- C5: every syntactically valid integer token (optional single leading
`-`, then one or more ASCII digits) whose value exceeds the `i32` range
makes `parse` fail with `ParseFailure` — the value-range/conversion class,
a constructor distinct from `SyntaxError`. -/
theorem C5_overflow_value_range :
    ∀ ds : List Nat, ds ≠ [] → (∀ c ∈ ds, 48 ≤ c ∧ c ≤ 57) →
      ((2147483647 < digits_val ds →
        parse (105 :: (ds ++ [101])) = .error .parseFailure) ∧
       (2147483648 < digits_val ds →
        parse (105 :: 45 :: (ds ++ [101])) = .error .parseFailure)) ∧
      ParseErr.parseFailure ≠ ParseErr.syntaxError := by
  intro ds hne hd
  refine ⟨⟨?_, ?_⟩, by decide⟩
  · intro hov
    have h1 : parse (105 :: (ds ++ [101]))
        = (parse_data ((2 * (105 :: (ds ++ [101])).length + 1) + 1)
            (105 :: (ds ++ [101]))).map Prod.fst := rfl
    rw [h1, parse_data_dispatch_i, parse_number_overflow_pos ds hne hd hov]
    rfl
  · intro hov
    have h1 : parse (105 :: 45 :: (ds ++ [101]))
        = (parse_data ((2 * (105 :: 45 :: (ds ++ [101])).length + 1) + 1)
            (105 :: 45 :: (ds ++ [101]))).map Prod.fst := rfl
    have h2 : (105 : Nat) :: 45 :: (ds ++ [101]) = 105 :: (45 :: ds ++ [101]) := by simp
    rw [h1, parse_data_dispatch_i]
    rw [h2, parse_number_overflow_neg ds hne hd hov]
    rfl

/-- Witness for C5 at the tokens `"2147483648"` and `"-2147483649"`
(the first values beyond `i32::MAX` and `i32::MIN`). -/
theorem C5_overflow_value_range_witness :
    parse [105, 50, 49, 52, 55, 52, 56, 51, 54, 52, 56, 101] = .error .parseFailure ∧
    parse [105, 45, 50, 49, 52, 55, 52, 56, 51, 54, 52, 57, 101] = .error .parseFailure := by
  constructor
  · exact ((C5_overflow_value_range [50, 49, 52, 55, 52, 56, 51, 54, 52, 56]
      (by decide) (by decide)).1.1 (by decide))
  · exact ((C5_overflow_value_range [50, 49, 52, 55, 52, 56, 51, 54, 52, 57]
      (by decide) (by decide)).1.2 (by decide))

/-- C6 is false on the code in dictionary-key position: `parse_string`'s
length loop treats an immediate `':'` as terminating a zero-valued length,
so where `parse_dict` calls it directly, a leading `':'` yields an empty
key instead of failing — `"d:i0ee"` decodes to a dictionary with the empty
key mapped to 0. -/
theorem C6_empty_key_counterexample :
    parse [100, 58, 105, 48, 101, 101] = .ok (.dict [([], .number 0)]) := rfl

/-- C6 amended: `parse_string` itself accepts absent digits, returning an
empty byte string when the first byte is `':'`; at top level (and hence in
list-element position) a leading `':'` still fails, but only because the
dispatch in `parse_data` rejects it as `SyntaxError` before `parse_string`
is reached, while in dictionary-key position the empty string is produced
(`"d:i0ee"`).  The missing-separator and short-payload failures hold as
claimed (`"3a"` is a `SyntaxError`, `"3:ab"` a `DataException`). -/
theorem C6_string_production_amended :
    (∀ rest : List Nat, parse_string (58 :: rest) = .ok (.bstring [], rest)) ∧
    parse [58, 97] = .error .syntaxError ∧
    parse [100, 58, 105, 48, 101, 101] = .ok (.dict [([], .number 0)]) ∧
    parse [51, 58, 97, 98] = .error .dataException ∧
    parse [51, 97] = .error .syntaxError := by
  refine ⟨?_, rfl, rfl, rfl, rfl⟩
  intro rest
  simp [parse_string, parse_string_len, parse_string_take]

/-- C7: every dictionary the decoder constructs satisfies the `BTreeMap`
ordering invariant (strictly ascending keys, recursively), and `stringify`
emits `d`, the key/value pairs in exactly that stored ascending order, then
`e`; in particular decoding `"d3:fooi42e3:bar4:spame"` (keys out of order)
and re-encoding yields `"d3:bar4:spam3:fooi42ee"`. -/
theorem C7_dict_canonical_order :
    (∀ src v, parse src = .ok v → dicts_sorted v = true) ∧
    (∀ (m : List (List Nat × BData)) its, keys_sorted m = true →
      stringify_dict_items m = .ok its →
      stringify (.dict m) = .ok (100 :: its ++ [101])) ∧
    parse [100, 51, 58, 102, 111, 111, 105, 52, 50, 101, 51, 58, 98, 97, 114,
        52, 58, 115, 112, 97, 109, 101]
      = .ok (.dict [([98, 97, 114], .bstring [115, 112, 97, 109]),
        ([102, 111, 111], .number 42)]) ∧
    stringify (.dict [([98, 97, 114], .bstring [115, 112, 97, 109]),
        ([102, 111, 111], .number 42)])
      = .ok [100, 51, 58, 98, 97, 114, 52, 58, 115, 112, 97, 109, 51, 58,
        102, 111, 111, 105, 52, 50, 101, 101] := by
  refine ⟨parse_dicts_sorted, ?_, rfl, rfl⟩
  intro m its _ hits
  simp [stringify, hits]

/-- Witness for C7: the invariant at the decoded example, and the emission
shape at a concrete sorted one-pair dictionary. -/
theorem C7_dict_canonical_order_witness :
    dicts_sorted (BData.dict [([98, 97, 114], .bstring [115, 112, 97, 109]),
      ([102, 111, 111], .number 42)]) = true ∧
    stringify (BData.dict [([97], .number 1)])
      = .ok [100, 49, 58, 97, 105, 49, 101, 101] := by
  constructor
  · exact C7_dict_canonical_order.1
      [100, 51, 58, 102, 111, 111, 105, 52, 50, 101, 51, 58, 98, 97, 114,
        52, 58, 115, 112, 97, 109, 101] _ rfl
  · have h := C7_dict_canonical_order.2.1 [([97], .number 1)]
      [49, 58, 97, 105, 49, 101] rfl rfl
    simpa using h

/-- C8 is false as stated: it ranges over every valid dictionary input with
a duplicated key, but when the duplicated key is not valid UTF-8 parse does
not succeed at all.  `"d1:\xffi1e1:\xffi2ee"` is a valid dictionary input
in which the key `0xff` occurs twice, yet `parse` fails with
`SyntaxError`: each occurrence of the key is dropped without consuming its
value, so the loop tries to parse `"i1e"` as a key. -/
theorem C8_duplicate_keys_counterexample :
    parse [100, 49, 58, 255, 105, 49, 101, 49, 58, 255, 105, 50, 101, 101]
      = .error .syntaxError := rfl

/-- C8 amended: for duplicate keys that are valid UTF-8, decoding applies
last-write-wins — for every valid-UTF-8 key `k` and any two valid values,
the dictionary input encoding `k` twice parses successfully to the map
sending `k` to the second value (each occurrence is inserted in input
order and `BTreeMap::insert` overwrites, as the `map_lookup`/`map_insert`
conjunct states for any map); concretely `"d1:ai1e1:ai2ee"` decodes to
`{"a": 2}`.  For a duplicated key that is not valid UTF-8 the pair is
skipped instead and parse fails (see the counterexample). -/
theorem C8_duplicate_keys_amended :
    (∀ (k : List Nat) (v1 v2 : BData) (d1 d2 : List Nat),
      utf8_valid k = true → valid v1 = true → valid v2 = true →
      stringify v1 = .ok d1 → stringify v2 = .ok d2 →
      parse (100 :: ((nat_digits k.length ++ 58 :: k) ++
          (d1 ++ ((nat_digits k.length ++ 58 :: k) ++ (d2 ++ [101])))))
        = .ok (.dict [(k, v2)])) ∧
    (∀ m (k : List Nat) (v : BData), map_lookup k (map_insert k v m) = some v) ∧
    parse [100, 49, 58, 97, 105, 49, 101, 49, 58, 97, 105, 50, 101, 101]
      = .ok (.dict [([97], .number 2)]) := by
  refine ⟨?_, fun m k v => map_lookup_insert m k v, rfl⟩
  intro k v1 v2 d1 d2 hk h1 h2 hd1 hd2
  rw [parse_eq]
  rw [parse_dict_two_pairs k v1 v2 d1 d2 _ hk h1 h2 hd1 hd2
    (by simp only [List.length_cons, List.length_append]; omega)]
  rfl

/-- Witness for the amended C8 at `"d1:ai1e1:ai2ee"`: key `"a"`, values 1
then 2, decoding to the last occurrence. -/
theorem C8_duplicate_keys_amended_witness :
    utf8_valid [97] = true ∧
    valid (BData.number 1) = true ∧ valid (BData.number 2) = true ∧
    stringify (BData.number 1) = .ok [105, 49, 101] ∧
    stringify (BData.number 2) = .ok [105, 50, 101] ∧
    parse [100, 49, 58, 97, 105, 49, 101, 49, 58, 97, 105, 50, 101, 101]
      = .ok (.dict [([97], .number 2)]) := by
  refine ⟨rfl, rfl, rfl, rfl, rfl, ?_⟩
  have h := C8_duplicate_keys_amended.1 [97] (.number 1) (.number 2)
    [105, 49, 101] [105, 50, 101] rfl rfl rfl rfl rfl
  simpa [nat_digits, nat_digits_core] using h

/-- C9: a dictionary key that parses as a byte string but is not valid
UTF-8 is silently dropped by `parse_dict` — no error, no insertion, and the
loop resumes at the position where the key's value would begin (so that
value is re-interpreted as the next key); consequently some inputs decode
successfully while omitting entries, e.g. `"d1:\xff1:a1:be"` yields just
`{"a": "b"}` with the `\xff` key gone. -/
theorem C9_invalid_utf8_key_skipped :
    (∀ (f : Nat) (m : List (List Nat × BData)) (rest : List Nat),
      parse_dict_loop (f + 1) m (49 :: 58 :: 255 :: rest) = parse_dict_loop f m rest) ∧
    utf8_valid [255] = false ∧
    parse [100, 49, 58, 255, 49, 58, 97, 49, 58, 98, 101]
      = .ok (.dict [([97], .bstring [98])]) := by
  refine ⟨?_, rfl, rfl⟩
  intro f m rest
  simp [parse_dict_loop, parse_string, parse_string_len, parse_string_take, utf8_valid,
    utf8_cont]

/-- C10: `stringify` is total — for every value of the model type, of any
variant and nesting, it returns `Ok`; the `Err` branches of
`stringify_list` and `stringify_dict` are unreachable because
`stringify_string` and `stringify_number` always succeed. -/
theorem C10_stringify_never_fails : ∀ v : BData, ∃ bs, stringify v = .ok bs :=
  stringify_total
